import Mathlib

/-!
Verification of the kyotsu-backend core: code grammar, prefix-tree path
resolver, increment allocator and lookup service, embedded shallowly from
the Python/SQL sources under src/.

Python strings are modelled as `List Char` (`Str`), machine integers as
`Nat` (all integers involved are non-negative row ids, increments and
digit values), fallible steps as `Option` or explicit outcome types.
-/

set_option maxHeartbeats 1000000
set_option linter.unusedVariables false

/-- Python `str` modelled as a list of characters. -/
abbrev Str := List Char

/-- Python `str.upper()` on the ASCII letters (the only characters the code
grammar admits): `Char.toUpper` maps a-z to A-Z and fixes everything else. -/
def upperStr (s : Str) : Str := s.map Char.toUpper

/-- A character admitted by the `prefixes` capture group `[a-zA-Z.]` of
`error_code_pattern` (src/kyotsu/utis.py line 7). -/
def isPrefChar (c : Char) : Bool := c.isAlpha || c == '.'

/-- Python `int()` applied to a non-empty string of decimal digits. -/
def natOfDigits (s : Str) : Nat := s.foldl (fun n c => 10 * n + (c.toNat - 48)) 0

/-- Python `".".join(...)` on a list of segment strings. -/
def joinDot (segs : List Str) : Str := List.intercalate ['.'] segs

/-- Embedding of `parse_error_code` from src/kyotsu/utis.py.

The source runs `re.compile(r"(?P<prefixes>[a-zA-Z.]+)(?P<increment>\d+)").match(code)`:
`match` anchors at the start of the string only, both quantifiers are greedy,
and the character classes `[a-zA-Z.]` and `\d` are disjoint, so backtracking
inside the first group can never expose a digit; hence the regex matches
exactly when the longest leading run of letters/dots is non-empty and is
immediately followed by at least one digit, the `prefixes` group is that
entire run and the `increment` group is the longest digit run after it.
Trailing characters after the digits are ignored (the match is not anchored
at the end).  A failed match makes the source raise `AttributeError`
(`None.groupdict`), modelled as `none`; on success the source splits the
`prefixes` group on `"."` and converts the digits with `int`. -/
def parse_error_code (code : Str) : Option (List Str × Nat) :=
  if code.takeWhile isPrefChar = [] ∨ (code.dropWhile isPrefChar).takeWhile Char.isDigit = []
  then none
  else some ((code.takeWhile isPrefChar).splitOn '.',
    natOfDigits ((code.dropWhile isPrefChar).takeWhile Char.isDigit))

/-- The decimal digit character for `n < 10` (used by decimal rendering). -/
def digitChar (n : Nat) : Char :=
  match n with
  | 0 => '0' | 1 => '1' | 2 => '2' | 3 => '3' | 4 => '4'
  | 5 => '5' | 6 => '6' | 7 => '7' | 8 => '8' | _ => '9'

/-- Fuel-driven helper for decimal rendering; `fuel > n` always suffices
because the argument at least halves each step. -/
def toDecimalAux : Nat → Nat → Str
  | 0, _ => []
  | fuel + 1, n =>
    if n < 10 then [digitChar n]
    else toDecimalAux fuel (n / 10) ++ [digitChar (n % 10)]

/-- Decimal rendering of a natural number, as Python renders an `int` in an
f-string: most significant digit first, no leading zeros (except `"0"`). -/
def toDecimal (n : Nat) : Str := toDecimalAux (n + 1) n

/-- The increment rendering of `EventCode.str_value`
(src/kyotsu/db/models.py): Python format spec `0>4` pads the decimal form
with `'0'` on the left to width 4, and leaves longer numbers at natural
width. -/
def padIncrement (n : Nat) : Str :=
  let d := toDecimal n
  List.replicate (4 - d.length) '0' ++ d

/-- Formatting: the string rendering of an event code, per
`EventCode.str_value` composed with `Prefix.str_value`
(src/kyotsu/db/models.py): the segment chain joined with `"."`, followed by
the zero-padded increment with no separator. -/
def formatCode (segs : List Str) (n : Nat) : Str := joinDot segs ++ padIncrement n

/-! ### Generic helper lemmas on lists and characters -/

theorem takeWhile_append_all {α : Type} {p : α → Bool} {l1 l2 : List α}
    (h : ∀ x ∈ l1, p x = true) : (l1 ++ l2).takeWhile p = l1 ++ l2.takeWhile p := by
  induction l1 with
  | nil => simp
  | cons a t ih =>
    rw [List.cons_append, List.takeWhile_cons_of_pos (h a (by simp)), List.cons_append,
      ih (fun x hx => h x (by simp [hx]))]

theorem dropWhile_append_all {α : Type} {p : α → Bool} {l1 l2 : List α}
    (h : ∀ x ∈ l1, p x = true) : (l1 ++ l2).dropWhile p = l2.dropWhile p := by
  induction l1 with
  | nil => simp
  | cons a t ih =>
    rw [List.cons_append, List.dropWhile_cons_of_pos (h a (by simp))]
    exact ih (fun x hx => h x (by simp [hx]))

theorem isPrefChar_eq_false_of_isDigit {c : Char} (h : c.isDigit = true) :
    isPrefChar c = false := by
  simp only [Char.isDigit] at h
  simp only [isPrefChar, Char.isAlpha, Char.isUpper, Char.isLower]
  simp only [Bool.and_eq_true, decide_eq_true_eq, ge_iff_le] at h
  obtain ⟨h1, h2⟩ := h
  rw [UInt32.le_def, BitVec.le_def] at h1 h2
  have e48 : (UInt32.toBitVec 48).toNat = 48 := by decide
  have e57 : (UInt32.toBitVec 57).toNat = 57 := by decide
  have e65 : (UInt32.toBitVec 65).toNat = 65 := by decide
  have e97 : (UInt32.toBitVec 97).toNat = 97 := by decide
  simp only [Bool.or_eq_false_iff, Bool.and_eq_false_iff, decide_eq_false_iff_not, not_le,
    beq_eq_false_iff_ne, ne_eq, ge_iff_le]
  refine ⟨⟨Or.inl ?_, Or.inl ?_⟩, ?_⟩
  · intro hc; rw [UInt32.le_def, BitVec.le_def] at hc; omega
  · intro hc; rw [UInt32.le_def, BitVec.le_def] at hc; omega
  · intro hc; subst hc; revert h1; decide

theorem ne_dot_of_isAlpha {c : Char} (h : c.isAlpha = true) : c ≠ '.' := by
  intro hc; subst hc; revert h; decide

theorem isPrefChar_of_isAlpha {c : Char} (h : c.isAlpha = true) : isPrefChar c = true := by
  simp [isPrefChar, h]

theorem digitChar_isDigit {m : Nat} (h : m < 10) : (digitChar m).isDigit = true := by
  interval_cases m <;> decide

theorem digitChar_toNat {m : Nat} (h : m < 10) : (digitChar m).toNat = 48 + m := by
  interval_cases m <;> decide

/-! ### Decimal rendering lemmas -/

theorem toDecimalAux_fuel_irrel (n : Nat) : ∀ f1 f2, n < f1 → n < f2 →
    toDecimalAux f1 n = toDecimalAux f2 n := by
  induction n using Nat.strong_induction_on with
  | _ n ih =>
    intro f1 f2 h1 h2
    match f1, f2 with
    | g1 + 1, g2 + 1 =>
      simp only [toDecimalAux]
      by_cases h : n < 10
      · simp [h]
      · have hdiv : n / 10 < n := Nat.div_lt_self (by omega) (by omega)
        simp only [h, if_false]
        rw [ih (n / 10) hdiv g1 g2 (by omega) (by omega)]

theorem toDecimal_eq (n : Nat) :
    toDecimal n = if n < 10 then [digitChar n]
      else toDecimal (n / 10) ++ [digitChar (n % 10)] := by
  by_cases h : n < 10
  · simp [toDecimal, toDecimalAux, h]
  · have hdiv : n / 10 < n := Nat.div_lt_self (by omega) (by omega)
    rw [if_neg h]
    show toDecimalAux (n + 1) n = _
    rw [show toDecimalAux (n + 1) n = toDecimalAux n (n / 10) ++ [digitChar (n % 10)] from by
      simp [toDecimalAux, h]]
    rw [toDecimalAux_fuel_irrel (n / 10) n (n / 10 + 1) (by omega) (by omega)]
    rfl

theorem toDecimal_ne_nil (n : Nat) : toDecimal n ≠ [] := by
  rw [toDecimal_eq]
  by_cases h : n < 10 <;> simp [h]

theorem toDecimal_digits (n : Nat) : ∀ c ∈ toDecimal n, c.isDigit = true := by
  induction n using Nat.strong_induction_on with
  | _ n ih =>
    rw [toDecimal_eq]
    by_cases h : n < 10
    · simp only [h, if_true, List.mem_singleton]
      intro c hc; subst hc; exact digitChar_isDigit h
    · have hdiv : n / 10 < n := Nat.div_lt_self (by omega) (by omega)
      simp only [h, if_false, List.mem_append, List.mem_singleton]
      intro c hc
      rcases hc with hc | hc
      · exact ih (n / 10) hdiv c hc
      · subst hc; exact digitChar_isDigit (by omega)

theorem natOfDigits_append_digit (l : Str) (c : Char) :
    natOfDigits (l ++ [c]) = 10 * natOfDigits l + (c.toNat - 48) := by
  simp [natOfDigits, List.foldl_append]

theorem natOfDigits_toDecimal (n : Nat) : natOfDigits (toDecimal n) = n := by
  induction n using Nat.strong_induction_on with
  | _ n ih =>
    rw [toDecimal_eq]
    by_cases h : n < 10
    · simp only [h, if_true]
      simp [natOfDigits, digitChar_toNat h]
    · have hdiv : n / 10 < n := Nat.div_lt_self (by omega) (by omega)
      simp only [h, if_false]
      rw [natOfDigits_append_digit, ih (n / 10) hdiv, digitChar_toNat (by omega)]
      omega

theorem natOfDigits_replicate_zero (z : Nat) (l : Str) :
    natOfDigits (List.replicate z '0' ++ l) = natOfDigits l := by
  induction z with
  | zero => simp
  | succ z ih =>
    rw [List.replicate_succ, List.cons_append]
    show natOfDigits (List.replicate z '0' ++ l) = natOfDigits l
    exact ih

theorem padIncrement_ne_nil (n : Nat) : padIncrement n ≠ [] := by
  simp only [padIncrement]
  intro h
  rcases List.append_eq_nil.mp h with ⟨_, h2⟩
  exact toDecimal_ne_nil n h2

theorem padIncrement_digits (n : Nat) : ∀ c ∈ padIncrement n, c.isDigit = true := by
  simp only [padIncrement]
  intro c hc
  rcases List.mem_append.mp hc with hc | hc
  · rw [List.eq_of_mem_replicate hc]; decide
  · exact toDecimal_digits n c hc

theorem natOfDigits_padIncrement (n : Nat) : natOfDigits (padIncrement n) = n := by
  simp only [padIncrement]
  rw [natOfDigits_replicate_zero, natOfDigits_toDecimal]

/-! ### joinDot lemmas -/

theorem joinDot_nil : joinDot [] = [] := rfl

theorem joinDot_single (a : Str) : joinDot [a] = a := by
  simp [joinDot, List.intercalate]

theorem joinDot_cons_cons (a b : Str) (t : List Str) :
    joinDot (a :: b :: t) = a ++ '.' :: joinDot (b :: t) := by
  simp [joinDot, List.intercalate]

theorem mem_joinDot {c : Char} {S : List Str} (h : c ∈ joinDot S) :
    c = '.' ∨ ∃ s ∈ S, c ∈ s := by
  induction S with
  | nil => simp [joinDot_nil] at h
  | cons a t ih =>
    match t with
    | [] =>
      rw [joinDot_single] at h
      exact Or.inr ⟨a, by simp, h⟩
    | b :: t2 =>
      rw [joinDot_cons_cons] at h
      rcases List.mem_append.mp h with h1 | h1
      · exact Or.inr ⟨a, by simp, h1⟩
      · rcases List.mem_cons.mp h1 with h2 | h2
        · exact Or.inl h2
        · rcases ih h2 with h3 | ⟨s, hs, hcs⟩
          · exact Or.inl h3
          · exact Or.inr ⟨s, by simp [hs], hcs⟩

theorem joinDot_ne_nil {S : List Str} (hS : S ≠ []) (hseg : ∀ s ∈ S, s ≠ []) :
    joinDot S ≠ [] := by
  match S with
  | [a] => rw [joinDot_single]; exact hseg a (by simp)
  | a :: b :: t =>
    rw [joinDot_cons_cons]
    intro h
    rcases List.append_eq_nil.mp h with ⟨_, h2⟩
    simp at h2

/-! ### Code grammar: parse failure characterization and round-trip -/

/-- The regex of `parse_error_code` matches (equivalently, `re.match` is not
`None`) exactly when the input decomposes as a non-empty run of `[a-zA-Z.]`
characters followed by a non-empty run of digits followed by anything. -/
theorem parse_success_decomp (s : Str) :
    (s.takeWhile isPrefChar ≠ [] ∧ (s.dropWhile isPrefChar).takeWhile Char.isDigit ≠ []) ↔
      ∃ p d r, s = p ++ d ++ r ∧ p ≠ [] ∧ (∀ c ∈ p, isPrefChar c = true) ∧
        d ≠ [] ∧ (∀ c ∈ d, c.isDigit = true) := by
  constructor
  · rintro ⟨h1, h2⟩
    refine ⟨s.takeWhile isPrefChar, (s.dropWhile isPrefChar).takeWhile Char.isDigit,
      (s.dropWhile isPrefChar).dropWhile Char.isDigit, ?_, h1, ?_, h2, ?_⟩
    · rw [List.append_assoc, List.takeWhile_append_dropWhile, List.takeWhile_append_dropWhile]
    · intro c hc; exact List.mem_takeWhile_imp hc
    · intro c hc; exact List.mem_takeWhile_imp hc
  · rintro ⟨p, d, r, hs, hp, hpc, hd, hdc⟩
    obtain ⟨c, d', hcd⟩ : ∃ c d', d = c :: d' := by
      match d with
      | [] => exact absurd rfl hd
      | c :: d' => exact ⟨c, d', rfl⟩
    have hcdig : c.isDigit = true := hdc c (by simp [hcd])
    have hcnp : ¬ isPrefChar c = true := by
      rw [isPrefChar_eq_false_of_isDigit hcdig]; simp
    subst hs
    rw [List.append_assoc]
    constructor
    · rw [takeWhile_append_all hpc, hcd, List.cons_append,
        List.takeWhile_cons_of_neg hcnp, List.append_nil]
      exact hp
    · rw [dropWhile_append_all hpc, hcd, List.cons_append,
        List.dropWhile_cons_of_neg hcnp, ← List.cons_append, ← hcd,
        takeWhile_append_all hdc]
      intro hcon
      rcases List.append_eq_nil.mp hcon with ⟨h1, _⟩
      exact hd h1

/-- C3 (amended): `parse_error_code` fails — in the source by raising an
untyped `AttributeError` from `None.groupdict`, there being no
`MalformedCodeError` anywhere in the repository — exactly on the inputs with
no leading `[a-zA-Z.]+\d+` match: e.g. the empty string and `"ABC"`.  It does
NOT fail on empty segments or on trailing garbage after the digits. -/
theorem parse_error_code_eq_none_iff (s : Str) :
    parse_error_code s = none ↔
      ¬ ∃ p d r, s = p ++ d ++ r ∧ p ≠ [] ∧ (∀ c ∈ p, isPrefChar c = true) ∧
        d ≠ [] ∧ (∀ c ∈ d, c.isDigit = true) := by
  have hiff : parse_error_code s = none ↔
      (s.takeWhile isPrefChar = [] ∨ (s.dropWhile isPrefChar).takeWhile Char.isDigit = []) := by
    unfold parse_error_code
    by_cases h : s.takeWhile isPrefChar = [] ∨
        (s.dropWhile isPrefChar).takeWhile Char.isDigit = []
    · rw [if_pos h]; exact iff_of_true rfl h
    · rw [if_neg h]; exact iff_of_false (by simp) h
  rw [hiff]
  constructor
  · intro h hex
    rcases (parse_success_decomp s).mpr hex with ⟨ha, hb⟩
    rcases h with h | h
    · exact ha h
    · exact hb h
  · intro hnex
    by_contra hcon
    push_neg at hcon
    exact hnex ((parse_success_decomp s).mp hcon)

/-- C3 counterexample: an input with an empty segment (consecutive dots) and
an input with a disallowed trailing character both PARSE SUCCESSFULLY,
contradicting the claim that every such input fails with
`MalformedCodeError` and never returns a result. -/
theorem parse_error_code_accepts_invalid_inputs :
    parse_error_code "A..B0001".data = some ([['A'], [], ['B']], 1) ∧
    parse_error_code "A0001!".data = some ([['A']], 1) := by decide

/-- C4 (amended): the round-trip `parse (format S N) = (S, N)` holds for every
non-empty chain of non-empty segments made of ASCII letters only (the
character set the `[a-zA-Z.]` grammar can reproduce), and every `N ≥ 0`. -/
theorem parse_formatCode_roundtrip (S : List Str) (N : Nat) (hS : S ≠ [])
    (hseg : ∀ s ∈ S, s ≠ [] ∧ ∀ c ∈ s, c.isAlpha = true) :
    parse_error_code (formatCode S N) = some (S, N) := by
  have hPrefJoin : ∀ c ∈ joinDot S, isPrefChar c = true := by
    intro c hc
    rcases mem_joinDot hc with hc | ⟨s, hs, hcs⟩
    · subst hc; decide
    · exact isPrefChar_of_isAlpha ((hseg s hs).2 c hcs)
  obtain ⟨c, rest, hpad⟩ : ∃ c rest, padIncrement N = c :: rest := by
    match hp : padIncrement N with
    | [] => exact absurd hp (padIncrement_ne_nil N)
    | c :: rest => exact ⟨c, rest, rfl⟩
  have hcdigit : c.isDigit = true := padIncrement_digits N c (by rw [hpad]; simp)
  have hcnotpref : ¬ isPrefChar c = true := by
    rw [isPrefChar_eq_false_of_isDigit hcdigit]; simp
  have htw : (formatCode S N).takeWhile isPrefChar = joinDot S := by
    rw [formatCode, takeWhile_append_all hPrefJoin, hpad,
      List.takeWhile_cons_of_neg hcnotpref, List.append_nil]
  have hdw : (formatCode S N).dropWhile isPrefChar = padIncrement N := by
    rw [formatCode, dropWhile_append_all hPrefJoin, hpad,
      List.dropWhile_cons_of_neg hcnotpref]
  have hdtw : (padIncrement N).takeWhile Char.isDigit = padIncrement N :=
    List.takeWhile_eq_self_iff.mpr (fun x hx => padIncrement_digits N x hx)
  unfold parse_error_code
  rw [htw, hdw, hdtw, if_neg]
  · rw [natOfDigits_padIncrement]
    have hsplit : (joinDot S).splitOn '.' = S := by
      rw [joinDot]
      exact List.splitOn_intercalate S '.'
        (fun l hl hdot => absurd ((hseg l hl).2 '.' hdot) (by decide)) hS
    rw [hsplit]
  · push_neg
    exact ⟨joinDot_ne_nil hS (fun s hs => (hseg s hs).1), padIncrement_ne_nil N⟩

/-- C4 witness: the round-trip theorem applied at `S = ["AUTH","LOGIN"]`,
`N = 4`. -/
theorem parse_formatCode_roundtrip_witness :
    parse_error_code (formatCode [['A','U','T','H'], ['L','O','G','I','N']] 4) =
      some ([['A','U','T','H'], ['L','O','G','I','N']], 4) :=
  parse_formatCode_roundtrip [['A','U','T','H'], ['L','O','G','I','N']] 4
    (by decide) (by decide)

/-- C4 counterexample: for the segment `"A1"` (allowed by the claim: non-empty,
no dots, no surrounding whitespace) and increment 2, the formatted code
`"A10002"` parses back as `(["A"], 10002)`, not `(["A1"], 2)`: the digit
inside the segment is swallowed by the increment. -/
theorem roundtrip_fails_on_digit_segment :
    parse_error_code (formatCode [['A', '1']] 2) ≠ some ([['A', '1']], 2) ∧
    parse_error_code (formatCode [['A', '1']] 2) = some ([['A']], 10002) := by decide

/-! ### Prefix tree rows and the recursive CTE of the path resolver -/

/-- A row of the `prefixes` table (src/kyotsu/db/models.py, class `Prefix`).
The source column `prefix` is called `pfx` here because `prefix` is a
reserved keyword in Lean; `alias` and `description` play no role in any
claim and are omitted from the row. -/
structure PrefixRow where
  id : Nat
  pfx : Str
  parent_prefix_id : Option Nat
  deriving DecidableEq

/-- Anchor member of the recursive CTE in `get_prefix_ids_by_composed_key_query`
(src/kyotsu/utis.py): every root row (`parent_prefix_id IS NULL`) paired with
its own `prefix` as its composed path. -/
def cteAnchor (db : List PrefixRow) : List (Nat × Str) :=
  db.filterMap (fun r => if r.parent_prefix_id = none then some (r.id, r.pfx) else none)

/-- One iteration of the recursive member: join `Prefix` against the rows
produced by the previous iteration on
`Prefix.parent_prefix_id == anchor.c.id`, composing
`anchor.c.composed_prefix + '.' + Prefix.prefix`. -/
def cteStep (db : List PrefixRow) (prev : List (Nat × Str)) : List (Nat × Str) :=
  db.flatMap (fun r => prev.filterMap (fun e =>
    if r.parent_prefix_id = some e.1 then some (r.id, e.2 ++ '.' :: r.pfx) else none))

/-- The rows produced by the k-th iteration of the recursive CTE. -/
def cteLevels (db : List PrefixRow) : Nat → List (Nat × Str)
  | 0 => cteAnchor db
  | k + 1 => cteStep db (cteLevels db k)

/-- The UNION ALL of all iterations: SQL iterates the recursive member until
it produces no new rows; `chain_length_le` below shows that for an acyclic
parent relation every derivation dies within `db.length` iterations, so
taking levels `0 .. db.length` exhausts the fixed point. -/
def cteClosure (db : List PrefixRow) : List (Nat × Str) :=
  (List.range (db.length + 1)).flatMap (cteLevels db)

/-- Embedding of `get_prefix_ids_by_composed_key_query` (src/kyotsu/utis.py): from the
closure, select the ids whose composed path equals the dot-join of the
requested segments (the final `ORDER BY composed_prefix` sorts rows that all
share one composed-path value, so it cannot change which ids appear). -/
def get_prefix_ids_by_composed_key_query (db : List PrefixRow) (prefixes : List Str) :
    List Nat :=
  ((cteClosure db).filter (fun e => e.2 = joinDot prefixes)).map Prod.fst

/-- Predicate `ChainToN db r s k`: row `r` is reached from a root by a parent chain of
`k + 1` rows of `db`, and the dot-composition of the segments along that
chain (root first) is `s`.  This is the declarative reading of "composed
path" in the spec. -/
inductive ChainToN (db : List PrefixRow) : PrefixRow → Str → Nat → Prop
  | root (r : PrefixRow) : r ∈ db → r.parent_prefix_id = none → ChainToN db r r.pfx 0
  | step (p r : PrefixRow) (s : Str) (k : Nat) : ChainToN db p s k → r ∈ db →
      r.parent_prefix_id = some p.id → ChainToN db r (s ++ '.' :: r.pfx) (k + 1)

/-- The rows of CTE iteration `k` are exactly the length-`k` chain
compositions. -/
theorem mem_cteLevels_iff (db : List PrefixRow) (k : Nat) (i : Nat) (s : Str) :
    (i, s) ∈ cteLevels db k ↔ ∃ r, ChainToN db r s k ∧ r.id = i := by
  induction k generalizing i s with
  | zero =>
    simp only [cteLevels, cteAnchor, List.mem_filterMap]
    constructor
    · rintro ⟨r, hr, hx⟩
      by_cases hp : r.parent_prefix_id = none
      · rw [if_pos hp] at hx
        injection hx with hx
        obtain ⟨hx1, hx2⟩ := Prod.mk.injEq .. ▸ hx
        refine ⟨r, ?_, hx1⟩
        rw [← hx2]
        exact ChainToN.root r hr hp
      · rw [if_neg hp] at hx
        exact absurd hx (by simp)
    · rintro ⟨r, hc, hid⟩
      cases hc with
      | root r hr hp =>
        exact ⟨r, hr, by rw [if_pos hp, hid]⟩
  | succ k ih =>
    simp only [cteLevels, cteStep, List.mem_flatMap, List.mem_filterMap]
    constructor
    · rintro ⟨r, hr, e, he, hx⟩
      by_cases hp : r.parent_prefix_id = some e.1
      · rw [if_pos hp] at hx
        injection hx with hx
        obtain ⟨hx1, hx2⟩ := Prod.mk.injEq .. ▸ hx
        obtain ⟨p, hpc, hpid⟩ := (ih e.1 e.2).mp he
        refine ⟨r, ?_, hx1⟩
        rw [← hx2]
        exact ChainToN.step p r e.2 k hpc hr (by rw [hp, hpid])
      · rw [if_neg hp] at hx
        exact absurd hx (by simp)
    · rintro ⟨r, hc, hid⟩
      cases hc with
      | step p r s2 k hpc hr hpar =>
        refine ⟨r, hr, (p.id, s2), (ih p.id s2).mpr ⟨p, hpc, rfl⟩, ?_⟩
        rw [if_pos hpar, hid]

/-- Acyclicity of the parent relation, witnessed by a rank function that
strictly increases from parent to child (equivalent, for finite row sets, to
the absence of parent cycles). -/
def Acyclic (db : List PrefixRow) : Prop :=
  ∃ f : Nat → Nat, ∀ r ∈ db, ∀ p ∈ db, r.parent_prefix_id = some p.id → f p.id < f r.id

theorem chain_rows (db : List PrefixRow) (f : Nat → Nat)
    (hf : ∀ r ∈ db, ∀ p ∈ db, r.parent_prefix_id = some p.id → f p.id < f r.id)
    {r : PrefixRow} {s : Str} {k : Nat} (hc : ChainToN db r s k) :
    ∃ rs : List PrefixRow, rs.length = k + 1 ∧ (∀ x ∈ rs, x ∈ db) ∧
      rs.Pairwise (fun a b => f a.id < f b.id) ∧ (∀ x ∈ rs, f x.id ≤ f r.id) ∧ r ∈ rs := by
  induction hc with
  | root r hr hp => exact ⟨[r], rfl, by simp [hr], by simp, by simp, by simp⟩
  | step p r s k hpc hr hpar ih =>
    obtain ⟨rs, hlen, hmem, hpw, hle, hpin⟩ := ih
    have hplt : f p.id < f r.id := hf r hr p (hmem p hpin) hpar
    refine ⟨rs ++ [r], by simp [hlen], ?_, ?_, ?_, by simp⟩
    · intro x hx
      rcases List.mem_append.mp hx with hx | hx
      · exact hmem x hx
      · rw [List.mem_singleton.mp hx]; exact hr
    · rw [List.pairwise_append]
      refine ⟨hpw, by simp, ?_⟩
      intro a ha b hb
      rw [List.mem_singleton.mp hb]
      exact lt_of_le_of_lt (hle a ha) hplt
    · intro x hx
      rcases List.mem_append.mp hx with hx | hx
      · exact le_of_lt (lt_of_le_of_lt (hle x hx) hplt)
      · rw [List.mem_singleton.mp hx]

/-- For an acyclic relation, a chain of `k + 1` rows has pairwise-distinct
rows, so `k + 1` is at most the number of rows: every CTE derivation dies
within `db.length` iterations, which is why `cteClosure`'s `db.length + 1`
levels realize the full fixed point of the recursive query. -/
theorem chain_length_le (db : List PrefixRow) (hacyc : Acyclic db)
    {r : PrefixRow} {s : Str} {k : Nat} (hc : ChainToN db r s k) :
    k + 1 ≤ db.length := by
  obtain ⟨f, hf⟩ := hacyc
  obtain ⟨rs, hlen, hmem, hpw, -, -⟩ := chain_rows db f hf hc
  have hnd : rs.Nodup :=
    List.Pairwise.imp (fun h => by intro he; subst he; exact absurd h (lt_irrefl _)) hpw
  have hsub := (List.subperm_of_subset hnd (fun x hx => hmem x hx)).length_le
  omega

/-- Splitting a string at its last dot is unambiguous: if the parts after
the dot are dot-free, the decompositions coincide. -/
theorem append_dot_inj : ∀ (a b x y : Str), '.' ∉ x → '.' ∉ y →
    a ++ '.' :: x = b ++ '.' :: y → a = b ∧ x = y := by
  intro a
  induction a with
  | nil =>
    intro b x y hx hy h
    match b with
    | [] =>
      rw [List.nil_append, List.nil_append] at h
      exact ⟨rfl, (List.cons.injEq .. ▸ h).2⟩
    | c :: b' =>
      rw [List.nil_append, List.cons_append] at h
      obtain ⟨-, h2⟩ := List.cons.injEq .. ▸ h
      exact absurd (h2 ▸ List.mem_append_right b' (by simp)) hx
  | cons c a' ih =>
    intro b x y hx hy h
    match b with
    | [] =>
      rw [List.nil_append, List.cons_append] at h
      obtain ⟨-, h2⟩ := List.cons.injEq .. ▸ h
      exact absurd (h2.symm ▸ List.mem_append_right a' (by simp)) hy
    | c2 :: b' =>
      rw [List.cons_append, List.cons_append] at h
      obtain ⟨h1, h2⟩ := List.cons.injEq .. ▸ h
      obtain ⟨h3, h4⟩ := ih b' x y hx hy h2
      exact ⟨by rw [h1, h3], h4⟩

/-- Inversion principle for `ChainToN` usable at non-variable indices. -/
theorem chain_cases (db : List PrefixRow) {r : PrefixRow} {s : Str} {k : Nat}
    (hc : ChainToN db r s k) :
    (r.parent_prefix_id = none ∧ s = r.pfx ∧ k = 0 ∧ r ∈ db) ∨
    (∃ p s2 k2, ChainToN db p s2 k2 ∧ r ∈ db ∧ r.parent_prefix_id = some p.id ∧
      s = s2 ++ '.' :: r.pfx ∧ k = k2 + 1) := by
  cases hc with
  | root r hr hp => exact Or.inl ⟨hp, rfl, rfl, hr⟩
  | step p r s k hpc hr hpar => exact Or.inr ⟨p, s, k, hpc, hr, hpar, rfl, rfl⟩

theorem chain_ne_nil (db : List PrefixRow) (hseg : ∀ r ∈ db, r.pfx ≠ [] ∧ '.' ∉ r.pfx)
    {r : PrefixRow} {s : Str} {k : Nat} (hc : ChainToN db r s k) : s ≠ [] := by
  rcases chain_cases db hc with ⟨-, hs, -, hr⟩ | ⟨p, s2, k2, -, hr, -, hs, -⟩
  · rw [hs]; exact (hseg r hr).1
  · rw [hs]
    intro h
    rcases List.append_eq_nil.mp h with ⟨-, h2⟩
    simp at h2

/-- Under the forest well-formedness conditions (unique ids, dot-free
non-empty segments, unique (parent, segment) pairs), a composed path
determines the row and the chain length. -/
theorem chain_unique (db : List PrefixRow)
    (hseg : ∀ r ∈ db, r.pfx ≠ [] ∧ '.' ∉ r.pfx)
    (huni : ∀ r ∈ db, ∀ r2 ∈ db, r.parent_prefix_id = r2.parent_prefix_id →
      r.pfx = r2.pfx → r = r2)
    {r : PrefixRow} {s : Str} {k : Nat} (hc : ChainToN db r s k) :
    ∀ r2 k2, ChainToN db r2 s k2 → r2 = r ∧ k2 = k := by
  induction hc with
  | root r hr hp =>
    intro r2 k2 hc2
    rcases chain_cases db hc2 with ⟨hp2, hs2, hk2, hr2⟩ | ⟨p2, s2, k3, -, hr2, -, hs2, -⟩
    · exact ⟨huni r2 hr2 r hr (by rw [hp, hp2]) hs2.symm, hk2⟩
    · exact absurd (hs2 ▸ List.mem_append_right s2 (by simp)) (hseg r hr).2
  | step p r s k hpc hr hpar ih =>
    intro r2 k2 hc2
    rcases chain_cases db hc2 with ⟨hp2, hs2, hk2, hr2⟩ | ⟨p2, s2, k3, hc2p, hr2, hpar2, hs2, hk2⟩
    · exact absurd (hs2.symm ▸ List.mem_append_right s (by simp)) (hseg r2 hr2).2
    · obtain ⟨hseq, hpfxeq⟩ :=
        append_dot_inj s2 s r2.pfx r.pfx (hseg r2 hr2).2 (hseg r hr).2 hs2.symm
    -- hseq : s2 = s, hpfxeq : r2.pfx = r.pfx
      obtain ⟨hp2p, hk3⟩ := ih p2 k3 (hseq ▸ hc2p)
      have hr2r : r2 = r := by
        refine huni r2 hr2 r hr ?_ hpfxeq
        rw [hpar2, hpar, hp2p]
      exact ⟨hr2r, by omega⟩

/-- Membership in the full closure. -/
theorem mem_cteClosure_iff (db : List PrefixRow) (i : Nat) (s : Str) :
    (i, s) ∈ cteClosure db ↔
      ∃ k, k ≤ db.length ∧ ∃ r, ChainToN db r s k ∧ r.id = i := by
  simp only [cteClosure, List.mem_flatMap, List.mem_range]
  constructor
  · rintro ⟨k, hk, hm⟩
    exact ⟨k, by omega, (mem_cteLevels_iff db k i s).mp hm⟩
  · rintro ⟨k, hk, hr⟩
    exact ⟨k, by omega, (mem_cteLevels_iff db k i s).mpr hr⟩

/-- C1: for every forest of prefix rows (unique ids, acyclic parent
relation, non-empty dot-free segments, unique (parent, segment)) and every
requested segment sequence, if some node's composed dotted path equals the
dot-join of the segments then `get_prefix_ids_by_composed_key_query`
returns exactly that node's id (its first — and only — row), and that node
is unique. -/
theorem resolve_returns_unique_matching_node (db : List PrefixRow)
    (hacyc : Acyclic db)
    (hseg : ∀ r ∈ db, r.pfx ≠ [] ∧ '.' ∉ r.pfx)
    (huni : ∀ r ∈ db, ∀ r2 ∈ db, r.parent_prefix_id = r2.parent_prefix_id →
      r.pfx = r2.pfx → r = r2)
    (segs : List Str) (hsegs : segs ≠ [])
    (r : PrefixRow) (k : Nat) (hchain : ChainToN db r (joinDot segs) k) :
    (get_prefix_ids_by_composed_key_query db segs).head? = some r.id ∧
    (∀ j ∈ get_prefix_ids_by_composed_key_query db segs, j = r.id) ∧
    (∀ r2 k2, ChainToN db r2 (joinDot segs) k2 → r2 = r) := by
  have huniq := chain_unique db hseg huni hchain
  have hall : ∀ j ∈ get_prefix_ids_by_composed_key_query db segs, j = r.id := by
    intro j hj
    simp only [get_prefix_ids_by_composed_key_query, List.mem_map, List.mem_filter] at hj
    obtain ⟨e, ⟨hecl, hes⟩, hej⟩ := hj
    have hes2 : e.2 = joinDot segs := by simpa using hes
    have hecl2 : (e.1, e.2) ∈ cteClosure db := hecl
    obtain ⟨k2, -, r2, hc2, hid2⟩ := (mem_cteClosure_iff db e.1 e.2).mp hecl2
    rw [hes2] at hc2
    obtain ⟨hr2, -⟩ := huniq r2 k2 hc2
    rw [← hej, ← hid2, hr2]
  have hmem : r.id ∈ get_prefix_ids_by_composed_key_query db segs := by
    have hk : k ≤ db.length := by
      have := chain_length_le db hacyc hchain
      omega
    have hincl : (r.id, joinDot segs) ∈ cteClosure db :=
      (mem_cteClosure_iff db r.id (joinDot segs)).mpr ⟨k, hk, r, hchain, rfl⟩
    simp only [get_prefix_ids_by_composed_key_query, List.mem_map, List.mem_filter]
    exact ⟨(r.id, joinDot segs), ⟨hincl, by simp⟩, rfl⟩
  refine ⟨?_, hall, fun r2 k2 hc2 => (huniq r2 k2 hc2).1⟩
  obtain ⟨j, t, hq⟩ :=
    List.exists_cons_of_ne_nil (List.ne_nil_of_mem hmem)
  rw [hq, List.head?_cons]
  rw [hall j (by rw [hq]; simp)]

/-- The concrete three-level tree of §8 of the spec: root `A`, child
`A.LOGIN`, grandchild `A.LOGIN.OAUTH`. -/
def dbW : List PrefixRow :=
  [⟨1, ['A'], none⟩, ⟨2, ['L','O','G','I','N'], some 1⟩, ⟨3, ['O','A','U','T','H'], some 2⟩]

/-- C1 witness: on the concrete tree, resolving `["A","LOGIN"]` returns
exactly node 2. -/
theorem resolve_returns_unique_matching_node_witness :
    (get_prefix_ids_by_composed_key_query dbW [['A'], ['L','O','G','I','N']]).head? = some 2 ∧
    (∀ j ∈ get_prefix_ids_by_composed_key_query dbW [['A'], ['L','O','G','I','N']], j = 2) ∧
    (∀ r2 k2, ChainToN dbW r2 (joinDot [['A'], ['L','O','G','I','N']]) k2 →
      r2 = ⟨2, ['L','O','G','I','N'], some 1⟩) := by
  have hchain : ChainToN dbW ⟨2, ['L','O','G','I','N'], some 1⟩
      (joinDot [['A'], ['L','O','G','I','N']]) 1 := by
    have h0 : ChainToN dbW ⟨1, ['A'], none⟩ ['A'] 0 :=
      ChainToN.root _ (by decide) rfl
    have h1 : ChainToN dbW ⟨2, ['L','O','G','I','N'], some 1⟩
        (['A'] ++ '.' :: ['L','O','G','I','N']) 1 :=
      ChainToN.step _ _ _ _ h0 (by decide) rfl
    have hj : joinDot [['A'], ['L','O','G','I','N']] = ['A'] ++ '.' :: ['L','O','G','I','N'] := by
      decide
    rw [hj]
    exact h1
  exact resolve_returns_unique_matching_node dbW ⟨fun n => n, by decide⟩
    (by decide) (by decide) [['A'], ['L','O','G','I','N']] (by decide)
    ⟨2, ['L','O','G','I','N'], some 1⟩ 1 hchain

/-! ### Event codes and the increment allocator -/

/-- Embedding of `EventCodeSeverityEnum` (src/kyotsu/db/constants.py). -/
inductive Severity
  | critical
  | error
  | warning
  | info
  deriving DecidableEq

/-- A row of the `error_codes` table (src/kyotsu/db/models.py, class
`EventCode`).  The UUID primary key is modelled as an opaque `Nat`;
`dev_note` plays no role in any claim and is omitted. -/
structure EventCodeRow where
  id : Nat
  prefix_id : Nat
  increment : Nat
  custom_message : Option Str
  hint : Option Str
  severity : Severity
  is_deprecated : Bool
  use_generic_message : Bool
  is_private : Bool
  deriving DecidableEq

/-- The non-derived fields a caller supplies when creating an EventCode
(the increment is overwritten by the trigger). -/
structure ECFields where
  id : Nat
  custom_message : Option Str
  hint : Option Str
  severity : Severity
  is_deprecated : Bool
  use_generic_message : Bool
  is_private : Bool
  deriving DecidableEq

/-- Embedding of `auto_event_code_increment_function` (src/kyotsu/db/triggers.py):
`SELECT COALESCE(MAX(increment), 0) + 1 ... FROM error_codes WHERE
prefix_id = NEW.prefix_id`, computed over the rows visible to the inserting
transaction. -/
def auto_increment_value (codes : List EventCodeRow) (pid : Nat) : Nat :=
  ((codes.filter (fun e => e.prefix_id = pid)).map (fun e => e.increment)).foldr max 0 + 1

/-- The row built by an INSERT after the BEFORE INSERT trigger
`trg_auto_increment` overwrote `NEW.increment`. -/
def mkEventCodeRow (codes : List EventCodeRow) (pid : Nat) (f : ECFields) : EventCodeRow :=
  ⟨f.id, pid, auto_increment_value codes pid, f.custom_message, f.hint, f.severity,
    f.is_deprecated, f.use_generic_message, f.is_private⟩

/-- An INSERT into `error_codes` under the BEFORE INSERT trigger. -/
def insertEventCode (codes : List EventCodeRow) (pid : Nat) (f : ECFields) :
    List EventCodeRow :=
  codes ++ [mkEventCodeRow codes pid f]

theorem le_foldr_max {l : List Nat} {x : Nat} (h : x ∈ l) : x ≤ l.foldr max 0 := by
  induction l with
  | nil => simp at h
  | cons a t ih =>
    rcases List.mem_cons.mp h with h | h
    · subst h; exact le_max_left _ _
    · exact le_trans (ih h) (le_max_right a _)

theorem foldr_max_mem (l : List Nat) : l.foldr max 0 = 0 ∨ l.foldr max 0 ∈ l := by
  induction l with
  | nil => exact Or.inl rfl
  | cons a t ih =>
    rw [List.foldr_cons]
    rcases Nat.le_total a (t.foldr max 0) with h | h
    · rw [max_eq_right h]
      rcases ih with h2 | h2
      · exact Or.inl h2
      · exact Or.inr (List.mem_cons_of_mem a h2)
    · rw [max_eq_left h]
      exact Or.inr (List.mem_cons_self a t)

theorem filter_insertEventCode (codes : List EventCodeRow) (pid pid2 : Nat) (f : ECFields) :
    (insertEventCode codes pid f).filter (fun e => e.prefix_id = pid2) =
      codes.filter (fun e => e.prefix_id = pid2) ++
        (if pid = pid2 then [mkEventCodeRow codes pid f] else []) := by
  rw [insertEventCode, List.filter_append]
  by_cases h : pid = pid2
  · simp [mkEventCodeRow, h]
  · simp [mkEventCodeRow, h]

/-- C2: the allocator (i) assigns a value strictly greater than every
existing increment under the same prefix, (ii) assigns exactly
`1 + max(existing, default 0)` — the value minus one is an existing
increment under the prefix or there are none and the value is 1,
(iii) yields 1, 2, 3 for three sequential creations under a prefix with no
existing codes, and (iv) is untouched by insertions under a different
prefix. -/
theorem event_code_auto_increment_spec (codes : List EventCodeRow)
    (pid pid2 : Nat) (f1 f2 : ECFields)
    (hempty : codes.filter (fun e => e.prefix_id = pid) = [])
    (hne : pid2 ≠ pid) :
    (∀ e ∈ codes, e.prefix_id = pid2 → e.increment < auto_increment_value codes pid2) ∧
    (auto_increment_value codes pid2 = 1 ∨
      ∃ e ∈ codes, e.prefix_id = pid2 ∧ e.increment + 1 = auto_increment_value codes pid2) ∧
    (auto_increment_value codes pid = 1 ∧
      auto_increment_value (insertEventCode codes pid f1) pid = 2 ∧
      auto_increment_value (insertEventCode (insertEventCode codes pid f1) pid f2) pid = 3) ∧
    (auto_increment_value (insertEventCode codes pid f1) pid2 =
      auto_increment_value codes pid2) := by
  refine ⟨?_, ?_, ?_, ?_⟩
  · intro e he hpe
    have hmem : e.increment ∈ (codes.filter (fun x => x.prefix_id = pid2)).map
        (fun x => x.increment) :=
      List.mem_map_of_mem _ (List.mem_filter.mpr ⟨he, by simp [hpe]⟩)
    have := le_foldr_max hmem
    rw [auto_increment_value]
    omega
  · rcases foldr_max_mem ((codes.filter (fun x => x.prefix_id = pid2)).map
        (fun x => x.increment)) with h | h
    · left; rw [auto_increment_value, h]
    · right
      obtain ⟨e, he, hei⟩ := List.mem_map.mp h
      obtain ⟨he2, hp2⟩ := List.mem_filter.mp he
      refine ⟨e, he2, by simpa using hp2, ?_⟩
      rw [auto_increment_value, hei]
  · have h1 : auto_increment_value codes pid = 1 := by
      rw [auto_increment_value, hempty]
      simp
    have hf1 : (insertEventCode codes pid f1).filter (fun e => e.prefix_id = pid) =
        [mkEventCodeRow codes pid f1] := by
      rw [filter_insertEventCode, hempty, if_pos rfl, List.nil_append]
    have h2 : auto_increment_value (insertEventCode codes pid f1) pid = 2 := by
      rw [auto_increment_value, hf1]
      simp [mkEventCodeRow, h1]
    have hf2 : (insertEventCode (insertEventCode codes pid f1) pid f2).filter
        (fun e => e.prefix_id = pid) =
        [mkEventCodeRow codes pid f1, mkEventCodeRow (insertEventCode codes pid f1) pid f2] := by
      rw [filter_insertEventCode, hf1, if_pos rfl]
      rfl
    refine ⟨h1, h2, ?_⟩
    rw [auto_increment_value, hf2]
    simp [mkEventCodeRow, h1, h2]
  · rw [auto_increment_value, auto_increment_value, filter_insertEventCode,
      if_neg (fun h => hne h.symm), List.append_nil]

/-- C2 witness: concrete run with an empty table and prefixes 1 and 2. -/
theorem event_code_auto_increment_spec_witness :
    (∀ e ∈ ([] : List EventCodeRow), e.prefix_id = 2 →
      e.increment < auto_increment_value [] 2) ∧
    (auto_increment_value ([] : List EventCodeRow) 2 = 1 ∨
      ∃ e ∈ ([] : List EventCodeRow), e.prefix_id = 2 ∧
        e.increment + 1 = auto_increment_value [] 2) ∧
    (auto_increment_value ([] : List EventCodeRow) 1 = 1 ∧
      auto_increment_value (insertEventCode [] 1 ⟨10, none, none, .error, false, false, false⟩) 1 = 2 ∧
      auto_increment_value (insertEventCode (insertEventCode [] 1
        ⟨10, none, none, .error, false, false, false⟩) 1
        ⟨11, none, none, .error, false, false, false⟩) 1 = 3) ∧
    (auto_increment_value (insertEventCode [] 1
      ⟨10, none, none, .error, false, false, false⟩) 2 = auto_increment_value [] 2) :=
  event_code_auto_increment_spec [] 1 2
    ⟨10, none, none, .error, false, false, false⟩
    ⟨11, none, none, .error, false, false, false⟩ (by decide) (by decide)

/-! ### Concurrency model for the allocator

The trigger `auto_event_code_increment_function` runs its `SELECT MAX` as a
plain (non-locking) read inside the inserting transaction.  The repository
configures no isolation level and takes no row locks, so PostgreSQL's
default READ COMMITTED applies: the read sees only rows committed at that
moment, and two in-flight transactions do not see each other's uncommitted
rows.  A transaction is modelled as a `read` step (the trigger computes the
increment from the committed rows) followed by a `write` step (its row is
committed with the previously computed increment). -/

structure RaceState where
  committed : List EventCodeRow
  pending1 : Option Nat
  pending2 : Option Nat
  deriving DecidableEq

inductive RaceStep
  | read1
  | read2
  | write1
  | write2
  deriving DecidableEq

def raceStepRun (pid : Nat) (f1 f2 : ECFields) (s : RaceState) : RaceStep → RaceState
  | .read1 => { s with pending1 := some (auto_increment_value s.committed pid) }
  | .read2 => { s with pending2 := some (auto_increment_value s.committed pid) }
  | .write1 =>
    match s.pending1 with
    | some n => { s with
        committed := s.committed ++ [⟨f1.id, pid, n, f1.custom_message, f1.hint,
          f1.severity, f1.is_deprecated, f1.use_generic_message, f1.is_private⟩],
        pending1 := none }
    | none => s
  | .write2 =>
    match s.pending2 with
    | some n => { s with
        committed := s.committed ++ [⟨f2.id, pid, n, f2.custom_message, f2.hint,
          f2.severity, f2.is_deprecated, f2.use_generic_message, f2.is_private⟩],
        pending2 := none }
    | none => s

def runRace (pid : Nat) (f1 f2 : ECFields) (steps : List RaceStep) : RaceState :=
  steps.foldl (raceStepRun pid f1 f2) ⟨[], none, none⟩

/-- C6 refuted at a concrete interleaving: under the schedule
read1, read2, write1, write2 — legal under READ COMMITTED without locking,
which is what the code ships — both transactions compute `MAX+1` over the
same committed snapshot and both rows land with increment 1: duplicate
increments under one prefix. -/
theorem auto_increment_race_duplicate :
    ((runRace 1 ⟨10, none, none, .error, false, false, false⟩
      ⟨11, none, none, .error, false, false, false⟩
      [.read1, .read2, .write1, .write2]).committed.map (fun e => e.increment)) = [1, 1] ∧
    ¬ ((runRace 1 ⟨10, none, none, .error, false, false, false⟩
      ⟨11, none, none, .error, false, false, false⟩
      [.read1, .read2, .write1, .write2]).committed.map (fun e => e.increment)).Nodup := by
  decide

/-! ### The lookup route `get_error_code_details` -/

/-- The fixed generic details string of the route. -/
def genericMessage : Str := "Something went wrong.".data

/-- The response model `EventCodeR` (src/kyotsu/api/service/routes.py):
pydantic requires `details : str` to be a non-null string. -/
structure EventCodeR where
  code : Str
  details : Str
  hint : Option Str
  severity : Severity
  deriving DecidableEq

/-- Every way `get_error_code_details` can terminate.

* `attributeErrorNoMatch` — `parse_error_code` called `.groupdict()` on
  `None` (`AttributeError`, an unhandled 500, not a typed error);
* `typeErrorNoneSubscript` — the resolver query returned zero rows, so
  `fetchone()` gave `None` and `None[0]` raised `TypeError` (unhandled 500);
* `prefixNotFound404` — the `if not prefix_id` branch raised HTTP 404
  "Prefix ... is not found" (reachable only for a falsy id, i.e. id 0);
* `eventCodeNotFound404` — `.one()` raised `NoResultFound`, converted to
  HTTP 404 "EventCode ... is not found";
* `multipleResultsError` — `.one()` raised `MultipleResultsFound`
  (unhandled);
* `validationErrorDetailsNone` — pydantic rejected `details=None`
  (unhandled);
* `ok` — the `EventCodeR` payload was returned. -/
inductive LookupOutcome
  | attributeErrorNoMatch
  | typeErrorNoneSubscript
  | prefixNotFound404
  | eventCodeNotFound404
  | multipleResultsError
  | validationErrorDetailsNone
  | ok (r : EventCodeR)
  deriving DecidableEq

/-- The persisted state the route reads: the two relations of §3. -/
structure DBState where
  prefixes : List PrefixRow
  eventCodes : List EventCodeRow
  deriving DecidableEq

/-- Embedding of `get_error_code_details` (src/kyotsu/api/service/routes.py), step by
step: parse `code.upper()`; run the recursive-CTE query and take
`fetchone()[0]`; raise 404 if the id is falsy; select EventCodes matching
`(prefix_id, increment)` and take `.one()`; pick the generic message or
`custom_message`; build `EventCodeR(code=code, ...)` with the caller's
ORIGINAL (non-uppercased) string. -/
def get_error_code_details (db : DBState) (code : Str) : LookupOutcome :=
  match parse_error_code (upperStr code) with
  | none => .attributeErrorNoMatch
  | some (prefixes, increment) =>
    match (get_prefix_ids_by_composed_key_query db.prefixes prefixes).head? with
    | none => .typeErrorNoneSubscript
    | some prefix_id =>
      if prefix_id = 0 then .prefixNotFound404
      else
        match db.eventCodes.filter (fun e =>
            e.prefix_id = prefix_id ∧ e.increment = increment) with
        | [] => .eventCodeNotFound404
        | [e] =>
          match (if e.use_generic_message then some genericMessage else e.custom_message) with
          | none => .validationErrorDetailsNone
          | some m => .ok ⟨code, m, e.hint, e.severity⟩
        | _ => .multipleResultsError

/-- C5 refuted on the code at a concrete input: with only the root `A` in
the tree, looking up `"A.MISSING0001"` resolves zero rows, so `fetchone()`
returns `None` and `None[0]` raises `TypeError` — an unhandled 500 — instead
of the intended `PrefixNotFoundError`/404.  The `if not prefix_id` branch
that would produce the 404 is unreachable in the zero-match case. -/
theorem resolve_zero_match_crashes :
    get_error_code_details ⟨[⟨1, ['A'], none⟩], []⟩ "A.MISSING0001".data =
      .typeErrorNoneSubscript ∧
    LookupOutcome.typeErrorNoneSubscript ≠ LookupOutcome.prefixNotFound404 := by
  decide

/-- Reduction of the route once parse and prefix resolution are fixed. -/
theorem get_error_code_details_eq (db : DBState) (code : Str) (prefixes : List Str)
    (inc pid : Nat)
    (hp : parse_error_code (upperStr code) = some (prefixes, inc))
    (hr : (get_prefix_ids_by_composed_key_query db.prefixes prefixes).head? = some pid)
    (h0 : pid ≠ 0) :
    get_error_code_details db code =
      match db.eventCodes.filter (fun e => e.prefix_id = pid ∧ e.increment = inc) with
      | [] => .eventCodeNotFound404
      | [e] =>
        match (if e.use_generic_message then some genericMessage else e.custom_message) with
        | none => .validationErrorDetailsNone
        | some m => .ok ⟨code, m, e.hint, e.severity⟩
      | _ => .multipleResultsError := by
  simp only [get_error_code_details, hp, hr, h0, if_false]

theorem get_error_code_details_eq_nil (db : DBState) (code : Str) (prefixes : List Str)
    (inc pid : Nat)
    (hp : parse_error_code (upperStr code) = some (prefixes, inc))
    (hr : (get_prefix_ids_by_composed_key_query db.prefixes prefixes).head? = some pid)
    (h0 : pid ≠ 0)
    (hf : db.eventCodes.filter (fun e => e.prefix_id = pid ∧ e.increment = inc) = []) :
    get_error_code_details db code = .eventCodeNotFound404 := by
  rw [get_error_code_details_eq db code prefixes inc pid hp hr h0, hf]

theorem get_error_code_details_eq_single (db : DBState) (code : Str) (prefixes : List Str)
    (inc pid : Nat) (e : EventCodeRow)
    (hp : parse_error_code (upperStr code) = some (prefixes, inc))
    (hr : (get_prefix_ids_by_composed_key_query db.prefixes prefixes).head? = some pid)
    (h0 : pid ≠ 0)
    (hf : db.eventCodes.filter (fun e2 => e2.prefix_id = pid ∧ e2.increment = inc) = [e]) :
    get_error_code_details db code =
      match (if e.use_generic_message then some genericMessage else e.custom_message) with
      | none => LookupOutcome.validationErrorDetailsNone
      | some m => LookupOutcome.ok ⟨code, m, e.hint, e.severity⟩ := by
  rw [get_error_code_details_eq db code prefixes inc pid hp hr h0, hf]

theorem get_error_code_details_eq_multi (db : DBState) (code : Str) (prefixes : List Str)
    (inc pid : Nat) (e1 e2 : EventCodeRow) (t : List EventCodeRow)
    (hp : parse_error_code (upperStr code) = some (prefixes, inc))
    (hr : (get_prefix_ids_by_composed_key_query db.prefixes prefixes).head? = some pid)
    (h0 : pid ≠ 0)
    (hf : db.eventCodes.filter (fun e => e.prefix_id = pid ∧ e.increment = inc) =
      e1 :: e2 :: t) :
    get_error_code_details db code = .multipleResultsError := by
  rw [get_error_code_details_eq db code prefixes inc pid hp hr h0, hf]

/-- C7: once parse and prefix resolution succeed (with a non-falsy id), the
route 404s with "EventCode not found" exactly when no EventCode matches
`(prefix_id, increment)`; with exactly one match, the returned `details` is
the fixed string "Something went wrong." when `use_generic_message` is set
and the row's `custom_message` otherwise. -/
theorem lookup_details_spec (db : DBState) (code : Str) (prefixes : List Str)
    (inc pid : Nat)
    (hp : parse_error_code (upperStr code) = some (prefixes, inc))
    (hr : (get_prefix_ids_by_composed_key_query db.prefixes prefixes).head? = some pid)
    (h0 : pid ≠ 0) :
    (get_error_code_details db code = .eventCodeNotFound404 ↔
      db.eventCodes.filter (fun e => e.prefix_id = pid ∧ e.increment = inc) = []) ∧
    (∀ e, db.eventCodes.filter (fun e2 => e2.prefix_id = pid ∧ e2.increment = inc) = [e] →
      e.use_generic_message = true →
      get_error_code_details db code = .ok ⟨code, genericMessage, e.hint, e.severity⟩) ∧
    (∀ e m, db.eventCodes.filter (fun e2 => e2.prefix_id = pid ∧ e2.increment = inc) = [e] →
      e.use_generic_message = false → e.custom_message = some m →
      get_error_code_details db code = .ok ⟨code, m, e.hint, e.severity⟩) := by
  refine ⟨⟨?_, ?_⟩, ?_, ?_⟩
  · intro h
    rcases hfil : db.eventCodes.filter (fun e => e.prefix_id = pid ∧ e.increment = inc) with
      _ | ⟨e, _ | ⟨e2, t⟩⟩
    · exact hfil
    · have heq := get_error_code_details_eq_single db code prefixes inc pid e hp hr h0 hfil
      rcases hmsg : (if e.use_generic_message then some genericMessage else e.custom_message)
        with _ | m
      · rw [hmsg] at heq; rw [heq] at h; simp at h
      · rw [hmsg] at heq; rw [heq] at h; simp at h
    · have heq := get_error_code_details_eq_multi db code prefixes inc pid e e2 t hp hr h0 hfil
      rw [heq] at h
      simp at h
  · intro h
    exact get_error_code_details_eq_nil db code prefixes inc pid hp hr h0 h
  · intro e hfil hg
    have heq := get_error_code_details_eq_single db code prefixes inc pid e hp hr h0 hfil
    rw [if_pos hg] at heq
    exact heq
  · intro e m hfil hg hm
    have heq := get_error_code_details_eq_single db code prefixes inc pid e hp hr h0 hfil
    rw [if_neg (by simp [hg]), hm] at heq
    exact heq

/-- The concrete end-to-end state of §8: root prefix `AUTH`, one EventCode
with increment 4, `custom_message = "Invalid credentials"`, severity ERROR. -/
def dbV : DBState :=
  ⟨[⟨1, ['A','U','T','H'], none⟩],
   [⟨100, 1, 4, some "Invalid credentials".data, none, .error, false, false, false⟩]⟩

/-- C7 witness: the spec's own end-to-end example evaluated through the
theorem. -/
theorem lookup_details_spec_witness :
    (get_error_code_details dbV "AUTH0004".data = .eventCodeNotFound404 ↔
      dbV.eventCodes.filter (fun e => e.prefix_id = 1 ∧ e.increment = 4) = []) ∧
    (∀ e, dbV.eventCodes.filter (fun e2 => e2.prefix_id = 1 ∧ e2.increment = 4) = [e] →
      e.use_generic_message = true →
      get_error_code_details dbV "AUTH0004".data = .ok ⟨"AUTH0004".data, genericMessage, e.hint, e.severity⟩) ∧
    (∀ e m, dbV.eventCodes.filter (fun e2 => e2.prefix_id = 1 ∧ e2.increment = 4) = [e] →
      e.use_generic_message = false → e.custom_message = some m →
      get_error_code_details dbV "AUTH0004".data = .ok ⟨"AUTH0004".data, m, e.hint, e.severity⟩) :=
  lookup_details_spec dbV "AUTH0004".data [['A','U','T','H']] 4 1
    (by decide) (by decide) (by decide)

/-! ### Case handling of the input code string (C9) -/

/-- The value-determining part of the route: everything the route computes
from the (already uppercased) code string, with the response's `code` field
blanked.  `get_error_code_details_factor` proves the route equal to this
core plus reinstating the caller's original string. -/
def lookupCore (db : DBState) (ucode : Str) : LookupOutcome :=
  match parse_error_code ucode with
  | none => .attributeErrorNoMatch
  | some (prefixes, increment) =>
    match (get_prefix_ids_by_composed_key_query db.prefixes prefixes).head? with
    | none => .typeErrorNoneSubscript
    | some prefix_id =>
      if prefix_id = 0 then .prefixNotFound404
      else
        match db.eventCodes.filter (fun e =>
            e.prefix_id = prefix_id ∧ e.increment = increment) with
        | [] => .eventCodeNotFound404
        | [e] =>
          match (if e.use_generic_message then some genericMessage else e.custom_message) with
          | none => .validationErrorDetailsNone
          | some m => .ok ⟨[], m, e.hint, e.severity⟩
        | _ => .multipleResultsError

/-- Reinstate the caller's original code string in a successful payload. -/
def putCode (code : Str) : LookupOutcome → LookupOutcome
  | .ok r => .ok ⟨code, r.details, r.hint, r.severity⟩
  | o => o

/-- Blank the code field of a successful payload (for comparing outcomes up
to the echoed input string). -/
def stripCode : LookupOutcome → LookupOutcome
  | .ok r => .ok ⟨[], r.details, r.hint, r.severity⟩
  | o => o

theorem putCode_msg (code : Str) (hint : Option Str) (sev : Severity) (o : Option Str) :
    (match o with
     | none => LookupOutcome.validationErrorDetailsNone
     | some m => LookupOutcome.ok ⟨code, m, hint, sev⟩) =
    putCode code (match o with
     | none => LookupOutcome.validationErrorDetailsNone
     | some m => LookupOutcome.ok ⟨[], m, hint, sev⟩) := by
  cases o <;> rfl

theorem putCode_filterMatch (code : Str) (l : List EventCodeRow) :
    (match l with
     | [] => LookupOutcome.eventCodeNotFound404
     | [e] =>
       match (if e.use_generic_message then some genericMessage else e.custom_message) with
       | none => LookupOutcome.validationErrorDetailsNone
       | some m => LookupOutcome.ok ⟨code, m, e.hint, e.severity⟩
     | _ => LookupOutcome.multipleResultsError) =
    putCode code (match l with
     | [] => LookupOutcome.eventCodeNotFound404
     | [e] =>
       match (if e.use_generic_message then some genericMessage else e.custom_message) with
       | none => LookupOutcome.validationErrorDetailsNone
       | some m => LookupOutcome.ok ⟨[], m, e.hint, e.severity⟩
     | _ => LookupOutcome.multipleResultsError) := by
  match l with
  | [] => rfl
  | [e] =>
    exact putCode_msg code e.hint e.severity
      (if e.use_generic_message then some genericMessage else e.custom_message)
  | e1 :: e2 :: t => rfl

theorem get_error_code_details_factor (db : DBState) (code : Str) :
    get_error_code_details db code = putCode code (lookupCore db (upperStr code)) := by
  cases hp : parse_error_code (upperStr code) with
  | none => simp only [get_error_code_details, lookupCore, hp]; rfl
  | some v =>
    obtain ⟨prefixes, inc⟩ := v
    cases hh : (get_prefix_ids_by_composed_key_query db.prefixes prefixes).head? with
    | none => simp only [get_error_code_details, lookupCore, hp, hh]; rfl
    | some pid =>
      simp only [get_error_code_details, lookupCore, hp, hh]
      by_cases h0 : pid = 0
      · rw [if_pos h0, if_pos h0]; rfl
      · rw [if_neg h0, if_neg h0]
        exact putCode_filterMatch code
          (db.eventCodes.filter (fun e => e.prefix_id = pid ∧ e.increment = inc))

theorem stripCode_putCode (code : Str) (o : LookupOutcome) :
    stripCode (putCode code o) = stripCode o := by
  cases o <;> rfl

/-- C9: the route parses and resolves `code.upper()`, so two inputs equal up
to ASCII letter case produce the same outcome except for the echoed `code`
field, and a successful payload echoes the caller's ORIGINAL, un-uppercased
string. -/
theorem lookup_case_insensitive (db : DBState) (c1 c2 : Str)
    (h : upperStr c1 = upperStr c2) :
    stripCode (get_error_code_details db c1) = stripCode (get_error_code_details db c2) ∧
    ∀ r, get_error_code_details db c1 = .ok r → r.code = c1 := by
  constructor
  · rw [get_error_code_details_factor, get_error_code_details_factor, h,
      stripCode_putCode, stripCode_putCode]
  · intro r hr
    rw [get_error_code_details_factor] at hr
    rcases ho : lookupCore db (upperStr c1) with _ | _ | _ | _ | _ | _ | r2 <;>
      rw [ho] at hr <;> simp [putCode] at hr
    rw [← hr]

/-- C9 witness: `"auth0004"` and `"AUTH0004"` agree up to ASCII case. -/
theorem lookup_case_insensitive_witness :
    (stripCode (get_error_code_details dbV "auth0004".data) =
      stripCode (get_error_code_details dbV "AUTH0004".data) ∧
    ∀ r, get_error_code_details dbV "auth0004".data = .ok r → r.code = "auth0004".data) :=
  lookup_case_insensitive dbV "auth0004".data "AUTH0004".data (by decide)

/-- C10: when the unique matching EventCode has `use_generic_message = false`
and `custom_message = NULL`, pydantic rejects `details=None`
(`EventCodeR.details` is a non-optional `str`): the route neither returns a
successful payload nor fails with any of the three typed lookup errors. -/
theorem lookup_null_custom_message_unrepresentable (db : DBState) (code : Str)
    (prefixes : List Str) (inc pid : Nat) (e : EventCodeRow)
    (hp : parse_error_code (upperStr code) = some (prefixes, inc))
    (hr : (get_prefix_ids_by_composed_key_query db.prefixes prefixes).head? = some pid)
    (h0 : pid ≠ 0)
    (hf : db.eventCodes.filter (fun e2 => e2.prefix_id = pid ∧ e2.increment = inc) = [e])
    (hg : e.use_generic_message = false) (hm : e.custom_message = none) :
    get_error_code_details db code = .validationErrorDetailsNone ∧
    (∀ r, get_error_code_details db code ≠ .ok r) ∧
    get_error_code_details db code ≠ .attributeErrorNoMatch ∧
    get_error_code_details db code ≠ .prefixNotFound404 ∧
    get_error_code_details db code ≠ .eventCodeNotFound404 := by
  have heq := get_error_code_details_eq_single db code prefixes inc pid e hp hr h0 hf
  rw [if_neg (by simp [hg]), hm] at heq
  have heq2 : get_error_code_details db code = .validationErrorDetailsNone := heq
  exact ⟨heq2, fun r => by rw [heq2]; simp, by rw [heq2]; simp, by rw [heq2]; simp,
    by rw [heq2]; simp⟩

/-- The C10 witness state: like `dbV` but with a NULL `custom_message`. -/
def dbN : DBState :=
  ⟨[⟨1, ['A','U','T','H'], none⟩],
   [⟨100, 1, 4, none, none, .error, false, false, false⟩]⟩

/-- C10 witness: the unrepresentability theorem applied at `dbN`. -/
theorem lookup_null_custom_message_unrepresentable_witness :
    get_error_code_details dbN "AUTH0004".data = .validationErrorDetailsNone ∧
    (∀ r, get_error_code_details dbN "AUTH0004".data ≠ .ok r) ∧
    get_error_code_details dbN "AUTH0004".data ≠ .attributeErrorNoMatch ∧
    get_error_code_details dbN "AUTH0004".data ≠ .prefixNotFound404 ∧
    get_error_code_details dbN "AUTH0004".data ≠ .eventCodeNotFound404 :=
  lookup_null_custom_message_unrepresentable dbN "AUTH0004".data [['A','U','T','H']] 4 1
    ⟨100, 1, 4, none, none, .error, false, false, false⟩
    (by decide) (by decide) (by decide) (by decide) rfl rfl

/-! ### Administrative operations and cascade deletion (C8)

src/kyotsu/db/models.py declares
`Prefix.parent_prefix_id : ForeignKey("prefixes.id", ondelete="CASCADE")` and
`EventCode.prefix_id : ForeignKey("prefixes.id", ondelete="CASCADE")`.
SQL `ON DELETE CASCADE` semantics: deleting a prefix row deletes every row
referencing it, recursively, in the same statement; inserts and updates that
would dangle a foreign key are rejected (modelled as leaving the state
unchanged, as the failed transaction does). -/

/-- Does a prefix row with this id exist? -/
def prefixIdExists (ps : List PrefixRow) (i : Nat) : Bool :=
  ps.any (fun p => p.id == i)

/-- Is the row's parent inside the `dead` id set? -/
def parentDead (dead : List Nat) (p : PrefixRow) : Bool :=
  match p.parent_prefix_id with
  | some q => q ∈ dead
  | none => false

/-- One round of `ON DELETE CASCADE` propagation along `parent_prefix_id`:
every live row whose parent is already condemned joins the dead set. -/
def cascadeStep (ps : List PrefixRow) (dead : List Nat) : List Nat :=
  dead ++ (ps.filter (fun p => !decide (p.id ∈ dead) && parentDead dead p)).map (fun p => p.id)

/-- Iterate `k` rounds of cascade propagation. -/
def cascadeN (ps : List PrefixRow) : Nat → List Nat → List Nat
  | 0, dead => dead
  | k + 1, dead => cascadeN ps k (cascadeStep ps dead)

/-- All prefix ids condemned by deleting id `i`: `ps.length + 1` rounds
always reach the fixed point (`cascadeSet_stable` below). -/
def cascadeSet (ps : List PrefixRow) (i : Nat) : List Nat :=
  cascadeN ps (ps.length + 1) [i]

/-- DELETE on `prefixes` with both `ON DELETE CASCADE` foreign keys:
removes the row, all its descendants, and every EventCode owned by any
removed prefix. -/
def deletePrefixRow (st : DBState) (i : Nat) : DBState :=
  ⟨st.prefixes.filter (fun p => !decide (p.id ∈ cascadeSet st.prefixes i)),
   st.eventCodes.filter (fun e => !decide (e.prefix_id ∈ cascadeSet st.prefixes i))⟩

/-- The administrative operations of §6 (create/update/delete on both
relations), as the admin UI (src/kyotsu/api/main.py) exposes them: prefix
create with a chosen parent, prefix reparent, prefix delete, event-code
create (increment derived by the trigger), event-code field update,
event-code delete. -/
inductive AdminOp
  | createPrefixOp (i : Nat) (seg : Str) (parent : Option Nat)
  | reparentPrefixOp (i : Nat) (newParent : Option Nat)
  | deletePrefixOp (i : Nat)
  | createEventCodeOp (pid : Nat) (f : ECFields)
  | updateEventCodeOp (i : Nat) (f : ECFields)
  | deleteEventCodeOp (i : Nat)

/-- Does the optional parent reference satisfy the foreign key? -/
def parentOk (st : DBState) : Option Nat → Bool
  | none => true
  | some q => prefixIdExists st.prefixes q

/-- Apply one administrative operation; an operation violating a primary-key
or foreign-key constraint fails and leaves the state unchanged. -/
def applyOp (st : DBState) : AdminOp → DBState
  | .createPrefixOp i seg par =>
    if !prefixIdExists st.prefixes i && parentOk st par then
      ⟨st.prefixes ++ [⟨i, seg, par⟩], st.eventCodes⟩
    else st
  | .reparentPrefixOp i par =>
    if parentOk st par then
      ⟨st.prefixes.map (fun p => if p.id = i then ⟨p.id, p.pfx, par⟩ else p), st.eventCodes⟩
    else st
  | .deletePrefixOp i => deletePrefixRow st i
  | .createEventCodeOp pid f =>
    if prefixIdExists st.prefixes pid then
      ⟨st.prefixes, insertEventCode st.eventCodes pid f⟩
    else st
  | .updateEventCodeOp i f =>
    ⟨st.prefixes, st.eventCodes.map (fun e =>
      if e.id = i then ⟨e.id, e.prefix_id, e.increment, f.custom_message, f.hint,
        f.severity, f.is_deprecated, f.use_generic_message, f.is_private⟩ else e)⟩
  | .deleteEventCodeOp i =>
    ⟨st.prefixes, st.eventCodes.filter (fun e => !(e.id == i))⟩

def applyOps (st : DBState) (ops : List AdminOp) : DBState := ops.foldl applyOp st

/-- Referential integrity of the two relations: distinct prefix ids, every
parent reference resolves, every EventCode's owner exists. -/
def Wellformed (st : DBState) : Prop :=
  (st.prefixes.map (fun p => p.id)).Nodup ∧
  (∀ p ∈ st.prefixes, parentOk st p.parent_prefix_id = true) ∧
  (∀ e ∈ st.eventCodes, prefixIdExists st.prefixes e.prefix_id = true)

theorem prefixIdExists_iff (ps : List PrefixRow) (i : Nat) :
    prefixIdExists ps i = true ↔ ∃ p ∈ ps, p.id = i := by
  simp [prefixIdExists, List.any_eq_true, beq_iff_eq]

/-- Predicate `DescendantOf ps i j`: prefix id `j` is `i` itself or reachable from `i`
downward through `parent_prefix_id`. -/
inductive DescendantOf (ps : List PrefixRow) (i : Nat) : Nat → Prop
  | refl : DescendantOf ps i i
  | child (p : PrefixRow) (q : Nat) : DescendantOf ps i q → p ∈ ps →
      p.parent_prefix_id = some q → DescendantOf ps i p.id

/-! ### Cascade fixed-point lemmas -/

theorem cascadeN_comm (ps : List PrefixRow) :
    ∀ k d, cascadeN ps k (cascadeStep ps d) = cascadeStep ps (cascadeN ps k d) := by
  intro k
  induction k with
  | zero => intro d; rfl
  | succ k ih =>
    intro d
    show cascadeN ps k (cascadeStep ps (cascadeStep ps d)) = _
    rw [ih (cascadeStep ps d)]
    rfl

theorem cascadeN_succ_eq (ps : List PrefixRow) (k : Nat) (d : List Nat) :
    cascadeN ps (k + 1) d = cascadeStep ps (cascadeN ps k d) := by
  show cascadeN ps k (cascadeStep ps d) = _
  exact cascadeN_comm ps k d

theorem mem_cascadeStep {ps : List PrefixRow} {d : List Nat} {x : Nat} :
    x ∈ cascadeStep ps d ↔
      x ∈ d ∨ ∃ p ∈ ps, p.id = x ∧ p.id ∉ d ∧ parentDead d p = true := by
  simp only [cascadeStep, List.mem_append, List.mem_map, List.mem_filter,
    Bool.and_eq_true, Bool.not_eq_eq_eq_not, Bool.not_true, decide_eq_false_iff_not]
  constructor
  · rintro (h | ⟨p, ⟨hp, hnd, hpd⟩, hx⟩)
    · exact Or.inl h
    · exact Or.inr ⟨p, hp, hx, hnd, hpd⟩
  · rintro (h | ⟨p, hp, hx, hnd, hpd⟩)
    · exact Or.inl h
    · exact Or.inr ⟨p, ⟨hp, hnd, hpd⟩, hx⟩

theorem mem_cascadeN_of_mem (ps : List PrefixRow) :
    ∀ k d, ∀ x ∈ d, x ∈ cascadeN ps k d := by
  intro k
  induction k with
  | zero => intro d x hx; exact hx
  | succ k ih =>
    intro d x hx
    show x ∈ cascadeN ps k (cascadeStep ps d)
    exact ih (cascadeStep ps d) x (mem_cascadeStep.mpr (Or.inl hx))

theorem mem_cascadeN_cases (ps : List PrefixRow) :
    ∀ k d x, x ∈ cascadeN ps k d → x ∈ d ∨ x ∈ ps.map (fun p => p.id) := by
  intro k
  induction k with
  | zero => intro d x hx; exact Or.inl hx
  | succ k ih =>
    intro d x hx
    rcases ih (cascadeStep ps d) x hx with h | h
    · rcases mem_cascadeStep.mp h with h | ⟨p, hp, hid, -, -⟩
      · exact Or.inl h
      · exact Or.inr (List.mem_map.mpr ⟨p, hp, hid⟩)
    · exact Or.inr h

theorem cascadeStep_nodup {ps : List PrefixRow} {d : List Nat}
    (hids : (ps.map (fun p => p.id)).Nodup) (hd : d.Nodup) :
    (cascadeStep ps d).Nodup := by
  rw [cascadeStep, List.nodup_append]
  refine ⟨hd, ?_, ?_⟩
  · have hsub : List.Sublist ((ps.filter (fun p => !decide (p.id ∈ d) && parentDead d p)).map
      (fun p => p.id)) (ps.map (fun p => p.id)) :=
      (List.filter_sublist ps).map (fun p => p.id)
    exact hids.sublist hsub
  · intro x hx hx2
    obtain ⟨p, hp, hid⟩ := List.mem_map.mp hx2
    obtain ⟨-, hcond⟩ := List.mem_filter.mp hp
    rw [Bool.and_eq_true] at hcond
    obtain ⟨hnd, -⟩ := hcond
    rw [Bool.not_eq_eq_eq_not, Bool.not_true, decide_eq_false_iff_not] at hnd
    exact hnd (hid ▸ hx)

theorem cascadeN_nodup (ps : List PrefixRow) (hids : (ps.map (fun p => p.id)).Nodup) :
    ∀ k d, d.Nodup → (cascadeN ps k d).Nodup := by
  intro k
  induction k with
  | zero => intro d hd; exact hd
  | succ k ih => intro d hd; exact ih (cascadeStep ps d) (cascadeStep_nodup hids hd)

theorem cascadeN_stable_of_fixed (ps : List PrefixRow) {d : List Nat}
    (h : cascadeStep ps d = d) : ∀ k, cascadeN ps k d = d := by
  intro k
  induction k with
  | zero => rfl
  | succ k ih =>
    rw [cascadeN_succ_eq, ih, h]

theorem cascadeN_growth (ps : List PrefixRow) (d : List Nat) :
    ∀ k, (∃ j, j < k ∧ cascadeStep ps (cascadeN ps j d) = cascadeN ps j d) ∨
      d.length + k ≤ (cascadeN ps k d).length := by
  intro k
  induction k with
  | zero =>
    right
    show d.length + 0 ≤ d.length
    omega
  | succ k ih =>
    rcases ih with ⟨j, hj, hfix⟩ | hlen
    · exact Or.inl ⟨j, by omega, hfix⟩
    · by_cases hfix : cascadeStep ps (cascadeN ps k d) = cascadeN ps k d
      · exact Or.inl ⟨k, by omega, hfix⟩
      · right
        rw [cascadeN_succ_eq, cascadeStep]
        rw [List.length_append]
        have : ((ps.filter (fun p => !decide (p.id ∈ cascadeN ps k d) &&
            parentDead (cascadeN ps k d) p)).map (fun p => p.id)).length ≠ 0 := by
          intro h0
          apply hfix
          rw [cascadeStep, List.length_eq_zero.mp h0, List.append_nil]
        omega

theorem cascadeSet_stable (ps : List PrefixRow) (i : Nat)
    (hids : (ps.map (fun p => p.id)).Nodup) :
    cascadeStep ps (cascadeSet ps i) = cascadeSet ps i := by
  have hsub : ∀ k, ∀ x ∈ cascadeN ps k [i], x ∈ i :: ps.map (fun p => p.id) := by
    intro k x hx
    rcases mem_cascadeN_cases ps k [i] x hx with h | h
    · rw [List.mem_singleton.mp h]; exact List.mem_cons_self i _
    · exact List.mem_cons_of_mem i h
  have hbound : ∀ k, (cascadeN ps k [i]).length ≤ ps.length + 1 := by
    intro k
    have hnd : (cascadeN ps k [i]).Nodup := cascadeN_nodup ps hids k [i] (by simp)
    have := (List.subperm_of_subset hnd (fun x hx => hsub k x hx)).length_le
    simpa using this
  rcases cascadeN_growth ps [i] (ps.length + 1) with ⟨j, hj, hfix⟩ | hlen
  · have hstab : ∀ m, cascadeN ps m (cascadeN ps j [i]) = cascadeN ps j [i] :=
      cascadeN_stable_of_fixed ps hfix
    have hcomp : ∀ a b, cascadeN ps (a + b) [i] = cascadeN ps b (cascadeN ps a [i]) := by
      intro a b
      induction b with
      | zero => rfl
      | succ b ihb =>
        rw [show a + (b + 1) = (a + b) + 1 from rfl, cascadeN_succ_eq, ihb, ← cascadeN_succ_eq]
    have heq : cascadeSet ps i = cascadeN ps j [i] := by
      rw [cascadeSet, show ps.length + 1 = j + (ps.length + 1 - j) from by omega,
        hcomp j (ps.length + 1 - j), hstab]
    rw [heq, hfix]
  · have h1 := hbound (ps.length + 1)
    simp only [List.length_singleton] at hlen
    omega

theorem cascadeSet_closed (ps : List PrefixRow) (i : Nat)
    (hids : (ps.map (fun p => p.id)).Nodup) :
    ∀ p ∈ ps, parentDead (cascadeSet ps i) p = true → p.id ∈ cascadeSet ps i := by
  intro p hp hpd
  by_contra hnot
  have : p.id ∈ cascadeStep ps (cascadeSet ps i) :=
    mem_cascadeStep.mpr (Or.inr ⟨p, hp, rfl, hnot, hpd⟩)
  rw [cascadeSet_stable ps i hids] at this
  exact hnot this

theorem self_mem_cascadeSet (ps : List PrefixRow) (i : Nat) : i ∈ cascadeSet ps i :=
  mem_cascadeN_of_mem ps (ps.length + 1) [i] i (by simp)

/-- Soundness: every condemned id is the deleted id or one of its
descendants. -/
theorem mem_cascadeSet_desc (ps : List PrefixRow) (i : Nat) :
    ∀ x ∈ cascadeSet ps i, DescendantOf ps i x := by
  have haux : ∀ k d, (∀ y ∈ d, DescendantOf ps i y) →
      ∀ x ∈ cascadeN ps k d, DescendantOf ps i x := by
    intro k
    induction k with
    | zero => intro d hd x hx; exact hd x hx
    | succ k ih =>
      intro d hd x hx
      refine ih (cascadeStep ps d) ?_ x hx
      intro y hy
      rcases mem_cascadeStep.mp hy with hy | ⟨p, hp, hid, -, hpd⟩
      · exact hd y hy
      · rw [parentDead] at hpd
        match hq : p.parent_prefix_id with
        | some q =>
          rw [hq] at hpd
          have hqd : q ∈ d := by simpa using hpd
          exact hid ▸ DescendantOf.child p q (hd q hqd) hp hq
        | none => rw [hq] at hpd; simp at hpd
  intro x hx
  exact haux (ps.length + 1) [i] (by intro y hy; rw [List.mem_singleton.mp hy]; exact .refl) x hx

/-- Completeness: every descendant of the deleted id is condemned. -/
theorem desc_mem_cascadeSet (ps : List PrefixRow) (i : Nat)
    (hids : (ps.map (fun p => p.id)).Nodup) :
    ∀ j, DescendantOf ps i j → j ∈ cascadeSet ps i := by
  intro j hj
  induction hj with
  | refl => exact self_mem_cascadeSet ps i
  | child p q hq hp hpar ih =>
    refine cascadeSet_closed ps i hids p hp ?_
    rw [parentDead, hpar]
    simpa using ih

/-! ### Wellformedness preservation -/

theorem mem_deletePrefixRow_prefixes {st : DBState} {i : Nat} {p : PrefixRow} :
    p ∈ (deletePrefixRow st i).prefixes ↔
      p ∈ st.prefixes ∧ p.id ∉ cascadeSet st.prefixes i := by
  simp [deletePrefixRow, List.mem_filter]

theorem mem_deletePrefixRow_eventCodes {st : DBState} {i : Nat} {e : EventCodeRow} :
    e ∈ (deletePrefixRow st i).eventCodes ↔
      e ∈ st.eventCodes ∧ e.prefix_id ∉ cascadeSet st.prefixes i := by
  simp [deletePrefixRow, List.mem_filter]

theorem prefixIdExists_false_iff (ps : List PrefixRow) (i : Nat) :
    prefixIdExists ps i = false ↔ ∀ p ∈ ps, p.id ≠ i := by
  constructor
  · intro h p hp he
    have : prefixIdExists ps i = true := (prefixIdExists_iff ps i).mpr ⟨p, hp, he⟩
    rw [h] at this
    exact absurd this (by simp)
  · intro h
    by_contra hc
    have : prefixIdExists ps i = true := by
      cases hb : prefixIdExists ps i
      · exact absurd hb hc
      · rfl
    obtain ⟨p, hp, he⟩ := (prefixIdExists_iff ps i).mp this
    exact h p hp he

theorem map_comp_eq_of_pointwise {α β : Type} (l : List α) (f : α → α) (g : α → β)
    (h : ∀ a, g (f a) = g a) : (l.map f).map g = l.map g := by
  induction l with
  | nil => rfl
  | cons a t ih => simp only [List.map_cons, h, ih]

theorem prefixIdExists_map_pres (ps : List PrefixRow) (f : PrefixRow → PrefixRow)
    (hf : ∀ p, (f p).id = p.id) (q : Nat) :
    prefixIdExists (ps.map f) q = prefixIdExists ps q := by
  cases hb : prefixIdExists ps q
  · rw [prefixIdExists_false_iff] at hb ⊢
    intro p hp
    obtain ⟨p0, hp0, rfl⟩ := List.mem_map.mp hp
    rw [hf p0]
    exact hb p0 hp0
  · rw [prefixIdExists_iff] at hb ⊢
    obtain ⟨p0, hp0, he⟩ := hb
    exact ⟨f p0, List.mem_map_of_mem f hp0, by rw [hf p0]; exact he⟩

theorem prefixIdExists_append (ps l : List PrefixRow) (q : Nat)
    (h : prefixIdExists ps q = true) : prefixIdExists (ps ++ l) q = true := by
  rw [prefixIdExists_iff] at h ⊢
  obtain ⟨p, hp, he⟩ := h
  exact ⟨p, List.mem_append_left l hp, he⟩

theorem applyOp_wellformed (st : DBState) (op : AdminOp) (h : Wellformed st) :
    Wellformed (applyOp st op) := by
  obtain ⟨hnd, hpar, hec⟩ := h
  cases op with
  | createPrefixOp i seg par =>
    show Wellformed (if !prefixIdExists st.prefixes i && parentOk st par then _ else st)
    by_cases hc : (!prefixIdExists st.prefixes i && parentOk st par) = true
    · rw [if_pos hc]
      rw [Bool.and_eq_true, Bool.not_eq_eq_eq_not, Bool.not_true] at hc
      obtain ⟨hnew, hpok⟩ := hc
      refine ⟨?_, ?_, ?_⟩
      · rw [List.map_append, List.nodup_append]
        refine ⟨hnd, by simp, ?_⟩
        intro x hx hx2
        obtain ⟨p, hp, hid⟩ := List.mem_map.mp hx
        have : x = i := by simpa using hx2
        exact (prefixIdExists_false_iff st.prefixes i).mp hnew p hp (by rw [hid, this])
      · intro p hp
        have hlift : ∀ o, parentOk st o = true →
            parentOk ⟨st.prefixes ++ [⟨i, seg, par⟩], st.eventCodes⟩ o = true := by
          intro o ho
          match o with
          | none => rfl
          | some q => exact prefixIdExists_append st.prefixes [⟨i, seg, par⟩] q ho
        rcases List.mem_append.mp hp with hp | hp
        · exact hlift p.parent_prefix_id (hpar p hp)
        · rw [List.mem_singleton.mp hp]
          exact hlift par hpok
      · intro e he
        exact prefixIdExists_append st.prefixes [⟨i, seg, par⟩] e.prefix_id (hec e he)
    · rw [if_neg hc]
      exact ⟨hnd, hpar, hec⟩
  | reparentPrefixOp i par =>
    show Wellformed (if parentOk st par = true then _ else st)
    by_cases hc : parentOk st par = true
    · rw [if_pos hc]
      have hidf : ∀ p : PrefixRow,
          ((fun p => if p.id = i then (⟨p.id, p.pfx, par⟩ : PrefixRow) else p) p).id = p.id := by
        intro p
        by_cases hpi : p.id = i <;> simp [hpi]
      have hpres : ∀ q, prefixIdExists (st.prefixes.map
          (fun p => if p.id = i then (⟨p.id, p.pfx, par⟩ : PrefixRow) else p)) q =
          prefixIdExists st.prefixes q :=
        prefixIdExists_map_pres st.prefixes _ hidf
      have hlift : ∀ o, parentOk st o = true →
          parentOk ⟨st.prefixes.map
            (fun p => if p.id = i then (⟨p.id, p.pfx, par⟩ : PrefixRow) else p),
            st.eventCodes⟩ o = true := by
        intro o ho
        match o with
        | none => rfl
        | some q => rw [show parentOk _ (some q) = prefixIdExists _ q from rfl, hpres q]; exact ho
      refine ⟨?_, ?_, ?_⟩
      · rw [map_comp_eq_of_pointwise st.prefixes _ _ hidf]
        exact hnd
      · intro p hp
        obtain ⟨p0, hp0, rfl⟩ := List.mem_map.mp hp
        by_cases hpi : p0.id = i
        · rw [if_pos hpi]
          exact hlift par hc
        · rw [if_neg hpi]
          exact hlift p0.parent_prefix_id (hpar p0 hp0)
      · intro e he
        rw [hpres e.prefix_id]
        exact hec e he
    · rw [if_neg hc]
      exact ⟨hnd, hpar, hec⟩
  | deletePrefixOp i =>
    refine ⟨?_, ?_, ?_⟩
    · have hsub : List.Sublist (((deletePrefixRow st i).prefixes).map (fun p => p.id))
          (st.prefixes.map (fun p => p.id)) :=
        (List.filter_sublist st.prefixes).map (fun p => p.id)
      exact hnd.sublist hsub
    · intro p hp
      obtain ⟨hpin, hpnd⟩ := mem_deletePrefixRow_prefixes.mp hp
      match ho : p.parent_prefix_id with
      | none => rfl
      | some q =>
        show prefixIdExists (deletePrefixRow st i).prefixes q = true
        have hq : prefixIdExists st.prefixes q = true := by
          have := hpar p hpin
          rw [ho] at this
          exact this
        obtain ⟨p2, hp2, hp2q⟩ := (prefixIdExists_iff st.prefixes q).mp hq
        have hp2nd : p2.id ∉ cascadeSet st.prefixes i := by
          intro hin
          apply hpnd
          refine cascadeSet_closed st.prefixes i hnd p hpin ?_
          rw [parentDead, ho]
          rw [hp2q] at hin
          simpa using hin
        exact (prefixIdExists_iff _ q).mpr
          ⟨p2, mem_deletePrefixRow_prefixes.mpr ⟨hp2, hp2nd⟩, hp2q⟩
    · intro e he
      obtain ⟨hein, hend⟩ := mem_deletePrefixRow_eventCodes.mp he
      obtain ⟨p2, hp2, hp2q⟩ := (prefixIdExists_iff st.prefixes e.prefix_id).mp (hec e hein)
      have hp2nd : p2.id ∉ cascadeSet st.prefixes i := by
        rw [hp2q]
        exact hend
      exact (prefixIdExists_iff _ e.prefix_id).mpr
        ⟨p2, mem_deletePrefixRow_prefixes.mpr ⟨hp2, hp2nd⟩, hp2q⟩
  | createEventCodeOp pid f =>
    show Wellformed (if prefixIdExists st.prefixes pid = true then _ else st)
    by_cases hc : prefixIdExists st.prefixes pid = true
    · rw [if_pos hc]
      refine ⟨hnd, hpar, ?_⟩
      intro e he
      rcases List.mem_append.mp he with he | he
      · exact hec e he
      · rw [List.mem_singleton.mp he]
        exact hc
    · rw [if_neg hc]
      exact ⟨hnd, hpar, hec⟩
  | updateEventCodeOp i f =>
    refine ⟨hnd, hpar, ?_⟩
    intro e he
    obtain ⟨e0, he0, rfl⟩ := List.mem_map.mp he
    by_cases hei : e0.id = i
    · rw [if_pos hei]
      exact hec e0 he0
    · rw [if_neg hei]
      exact hec e0 he0
  | deleteEventCodeOp i =>
    refine ⟨hnd, hpar, ?_⟩
    intro e he
    exact hec e (List.mem_of_mem_filter he)

theorem applyOps_wellformed (ops : List AdminOp) :
    ∀ st : DBState, Wellformed st → Wellformed (applyOps st ops) := by
  induction ops with
  | nil => intro st h; exact h
  | cons op t ih =>
    intro st h
    show Wellformed (applyOps (applyOp st op) t)
    exact ih (applyOp st op) (applyOp_wellformed st op h)

/-- C8: deleting a PrefixNode removes, in the same step, itself, every
descendant prefix row and every EventCode owned by the deleted node or any
descendant (and nothing else — every removed row is such a descendant or
owned code); and after any sequence of administrative create/update/delete
operations from a wellformed state, referential integrity holds: no
EventCode references a missing PrefixNode. -/
theorem cascade_delete_and_no_orphans (st : DBState) (i : Nat) (ops : List AdminOp)
    (h : Wellformed st) :
    (∀ p ∈ st.prefixes, DescendantOf st.prefixes i p.id →
      p ∉ (deletePrefixRow st i).prefixes) ∧
    (∀ e ∈ st.eventCodes, DescendantOf st.prefixes i e.prefix_id →
      e ∉ (deletePrefixRow st i).eventCodes) ∧
    (∀ p ∈ st.prefixes, p ∉ (deletePrefixRow st i).prefixes →
      DescendantOf st.prefixes i p.id) ∧
    (∀ e ∈ st.eventCodes, e ∉ (deletePrefixRow st i).eventCodes →
      DescendantOf st.prefixes i e.prefix_id) ∧
    Wellformed (applyOps st ops) ∧
    (∀ e ∈ (applyOps st ops).eventCodes,
      ∃ p ∈ (applyOps st ops).prefixes, p.id = e.prefix_id) := by
  have hnd := h.1
  have hwf := applyOps_wellformed ops st h
  refine ⟨?_, ?_, ?_, ?_, hwf, ?_⟩
  · intro p hp hdesc hmem
    exact (mem_deletePrefixRow_prefixes.mp hmem).2
      (desc_mem_cascadeSet st.prefixes i hnd p.id hdesc)
  · intro e he hdesc hmem
    exact (mem_deletePrefixRow_eventCodes.mp hmem).2
      (desc_mem_cascadeSet st.prefixes i hnd e.prefix_id hdesc)
  · intro p hp hmem
    by_cases hd : p.id ∈ cascadeSet st.prefixes i
    · exact mem_cascadeSet_desc st.prefixes i p.id hd
    · exact absurd (mem_deletePrefixRow_prefixes.mpr ⟨hp, hd⟩) hmem
  · intro e he hmem
    by_cases hd : e.prefix_id ∈ cascadeSet st.prefixes i
    · exact mem_cascadeSet_desc st.prefixes i e.prefix_id hd
    · exact absurd (mem_deletePrefixRow_eventCodes.mpr ⟨he, hd⟩) hmem
  · intro e he
    exact (prefixIdExists_iff _ e.prefix_id).mp (hwf.2.2 e he)

/-- The C8 witness state: the three-node tree plus one EventCode owned by
node 2. -/
def stW : DBState := ⟨dbW, [⟨100, 2, 1, none, none, .error, false, false, false⟩]⟩

/-- C8 witness: the cascade/no-orphan theorem applied at `stW`, deleting the
root and then running a concrete operation sequence. -/
theorem cascade_delete_and_no_orphans_witness :
    (∀ p ∈ stW.prefixes, DescendantOf stW.prefixes 1 p.id →
      p ∉ (deletePrefixRow stW 1).prefixes) ∧
    (∀ e ∈ stW.eventCodes, DescendantOf stW.prefixes 1 e.prefix_id →
      e ∉ (deletePrefixRow stW 1).eventCodes) ∧
    (∀ p ∈ stW.prefixes, p ∉ (deletePrefixRow stW 1).prefixes →
      DescendantOf stW.prefixes 1 p.id) ∧
    (∀ e ∈ stW.eventCodes, e ∉ (deletePrefixRow stW 1).eventCodes →
      DescendantOf stW.prefixes 1 e.prefix_id) ∧
    Wellformed (applyOps stW [.deletePrefixOp 1]) ∧
    (∀ e ∈ (applyOps stW [.deletePrefixOp 1]).eventCodes,
      ∃ p ∈ (applyOps stW [.deletePrefixOp 1]).prefixes, p.id = e.prefix_id) :=
  cascade_delete_and_no_orphans stW 1 [.deletePrefixOp 1] ⟨by decide, by decide, by decide⟩

example : parse_error_code "AUTH.LOGIN0004".data = some ([['A','U','T','H'], ['L','O','G','I','N']], 4) := by decide
example : parse_error_code "ABC".data = none := by decide
example : parse_error_code [] = none := by decide
example : parse_error_code "A..B0001".data = some ([['A'], [], ['B']], 1) := by decide
example : parse_error_code "A0001!".data = some ([['A']], 1) := by decide
example : formatCode [['A','U','T','H']] 4 = "AUTH0004".data := by decide
example : formatCode [['A']] 123456 = "A123456".data := by decide
